import Mathlib

/-!
# docsrv: release retrieval, eligibility filter and version ordering

A shallow embedding of `srv/github.go`.

* Go pointers (`*bool`, `*string`, `*Release`, `*github.Response`) are `Option`s,
  `nil` being `none`.
* A Go run-time panic (nil dereference, index out of range, `semver.MustParse`
  on a rejected string) is the constructor `Exec.panic`.
* The remote client (`github.Client`), the semantic-version library and the
  standard library sort are collaborators outside the repository. The client
  and the version library are parameters of the model; `sort.Sort` is modelled
  by its insertion-sort routine over the three `byTag` methods of the source.
* The unbounded `for` loop of `Releases` takes a fuel argument; `none` means the
  fuel ran out before the loop ended.
-/

namespace Docsrv

/-! ## Data model -/

/-- The result of running Go code that may panic. -/
inductive Exec (α : Type) where
  | ret (a : α)
  | panic
  deriving DecidableEq, Repr

/-- An error value reported by the remote client (`github` package). -/
structure ClientError where
  msg : String
  deriving DecidableEq, Repr

/-- Go `error` values that the service can return: the sentinel created by
`errors.New` in package `srv`, or an error handed over by the client. The
sentinel is a fresh pointer, so no client error is identical to it. -/
inductive GoError where
  | sentinel
  | client (e : ClientError)
  deriving DecidableEq, Repr

/-- `var ErrNotFound = errors.New("unable to find a release")`. -/
def ErrNotFound : GoError := GoError.sentinel

/-- `type Release struct { Tag string; Docs string }`. -/
structure Release where
  Tag : String
  Docs : String
  deriving DecidableEq, Repr

/-- The fields of `github.ReleaseAsset` that the source reads. -/
structure ReleaseAsset where
  Name : Option String
  BrowserDownloadURL : Option String
  deriving DecidableEq, Repr

/-- The fields of `github.RepositoryRelease` that the source reads. -/
structure RepositoryRelease where
  TagName : Option String
  Draft : Option Bool
  Prerelease : Option Bool
  Assets : List ReleaseAsset
  deriving DecidableEq, Repr

/-- `github.ListOptions{Page, PerPage}`. -/
structure ListOptions where
  Page : Nat
  PerPage : Nat
  deriving DecidableEq, Repr

/-- The fields of `github.Response` that the source reads. -/
structure Response where
  StatusCode : Nat
  NextPage : Nat
  deriving DecidableEq, Repr

/-- `net/http.StatusNotFound`. -/
def StatusNotFound : Nat := 404

/-- The two calls of `github.Client.Repositories` that the source makes, each
returning the Go triple `(value, resp, err)`. -/
structure Client where
  ListReleases : (owner repo : String) → ListOptions →
    List RepositoryRelease × Option Response × Option ClientError
  GetReleaseByTag : (owner repo tag : String) →
    Option RepositoryRelease × Option Response × Option ClientError

/-- `type gitHub struct { apiKey string; org string; client *github.Client }`. -/
structure gitHub where
  apiKey : String
  org : String
  client : Client

/-- The part of the semantic-version library that the source uses: the type
`semver.Version`, the parser behind `semver.MustParse` (`none` when it reports
an error) and `(*Version).LessThan`. -/
structure Semver where
  Version : Type
  NewVersion : String → Option Version
  LessThan : Version → Version → Bool

/-! ## The eligibility filter -/

/-- `func maybeBool(b *bool) bool`. -/
def maybeBool (b : Option Bool) : Bool :=
  match b with
  | some v => v
  | none => false

/-- `func maybeStr(str *string) string`. -/
def maybeStr (str : Option String) : String :=
  match str with
  | some v => v
  | none => ""

/-- The asset loop of `toRelease`: `docsURL` starts empty; the first asset
whose name is `docs.tar.gz` assigns its download URL and breaks. -/
def toRelease.docsURL : List ReleaseAsset → String
  | [] => ""
  | a :: rest =>
    if maybeStr a.Name = "docs.tar.gz" then maybeStr a.BrowserDownloadURL
    else toRelease.docsURL rest

/-- `func toRelease(r *github.RepositoryRelease) *Release`. -/
def toRelease (r : RepositoryRelease) : Option Release :=
  if maybeBool r.Draft || maybeBool r.Prerelease then none
  else
    let docsURL := toRelease.docsURL r.Assets
    if docsURL = "" then none
    else some ⟨maybeStr r.TagName, docsURL⟩

/-! ## Ordering by tag -/

/-- `func newVersion(v string) *semver.Version`: `semver.MustParse` panics
when the parser reports an error. -/
def newVersion (sv : Semver) (v : String) : Exec sv.Version :=
  match sv.NewVersion v with
  | some x => Exec.ret x
  | none => Exec.panic

/-- `func (b byTag) Len() int`. -/
def byTag.Len (b : List Release) : Nat := b.length

/-- `func (b byTag) Swap(i, j int)`: `b[i], b[j] = b[j], b[i]`; an index out of
range panics. -/
def byTag.Swap (b : List Release) (i j : Nat) : Exec (List Release) :=
  match b[i]?, b[j]? with
  | some x, some y => Exec.ret ((b.set i y).set j x)
  | _, _ => Exec.panic

/-- `func (b byTag) Less(i, j int) bool`: both tags go through `newVersion`,
then `vi.LessThan(vj)`. -/
def byTag.Less (sv : Semver) (b : List Release) (i j : Nat) : Exec Bool :=
  match b[i]? with
  | none => Exec.panic
  | some bi =>
    match newVersion sv bi.Tag with
    | Exec.panic => Exec.panic
    | Exec.ret vi =>
      match b[j]? with
      | none => Exec.panic
      | some bj =>
        match newVersion sv bj.Tag with
        | Exec.panic => Exec.panic
        | Exec.ret vj => Exec.ret (sv.LessThan vi vj)

/-- Modelled from the spec: the sort of the Go standard library is not part of
the repository. This is the inner loop of its `insertionSort(data, 0, b)`,
`for j := i; j > 0 && data.Less(j, j-1); j-- { data.Swap(j, j-1) }`, run on the
`Less` and `Swap` of the source. -/
def insertionSort.inner (sv : Semver) : Nat → List Release → Exec (List Release)
  | 0, data => Exec.ret data
  | j + 1, data =>
    match byTag.Less sv data (j + 1) j with
    | Exec.panic => Exec.panic
    | Exec.ret false => Exec.ret data
    | Exec.ret true =>
      match byTag.Swap data (j + 1) j with
      | Exec.panic => Exec.panic
      | Exec.ret swapped => insertionSort.inner sv j swapped

/-- Modelled from the spec: the sort of the Go standard library is not part of
the repository. This is the outer loop of its `insertionSort(data, 0, b)`,
`for i := 1; i < b; i++`, with `todo` the number of iterations still to run. -/
def insertionSort.outer (sv : Semver) : Nat → Nat → List Release → Exec (List Release)
  | 0, _, data => Exec.ret data
  | todo + 1, i, data =>
    match insertionSort.inner sv i data with
    | Exec.panic => Exec.panic
    | Exec.ret next => insertionSort.outer sv todo (i + 1) next

/-- Modelled from the spec: the sort of the Go standard library is not part of
the repository. This is its `insertionSort(data, 0, b)` over a `byTag`. -/
def insertionSort (sv : Semver) (data : List Release) (b : Nat) : Exec (List Release) :=
  insertionSort.outer sv (b - 1) 1 data

/-- Modelled from the spec: `sort.Sort` of the Go standard library is not part
of the repository. The spec asks for an ascending sort by parsed version, not
necessarily stable, that aborts on an unparseable tag met during the sort. The
model of `sort.Sort(byTag(result))` is the routine the library runs on short
slices, `insertionSort(data, 0, data.Len())`, driven by `Len`, `Less` and
`Swap` of the source; on long slices the library may order releases of equal
version differently. -/
def sortSort (sv : Semver) (data : List Release) : Exec (List Release) :=
  insertionSort sv data (byTag.Len data)

/-! ## The two operations -/

/-- The `for _, r := range releases` loop of `Releases`: every item that
`toRelease` keeps is appended to `result`. -/
def gitHub.Releases.collect (result : List Release) : List RepositoryRelease → List Release
  | [] => result
  | r :: rest =>
    match toRelease r with
    | none => gitHub.Releases.collect result rest
    | some release => gitHub.Releases.collect (result ++ [release]) rest

/-- What a call returns together with the requests it issued, in order. -/
structure Run (α : Type) where
  outcome : Exec α
  fetched : List ListOptions
  deriving DecidableEq, Repr

/-- The tail of `Releases` after the loop: `sort.Sort(byTag(result))` and
`return result, nil`. -/
def gitHub.Releases.finish (sv : Semver) (result : List Release) (log : List ListOptions) :
    Run (List Release × Option GoError) :=
  match sortSort sv result with
  | Exec.panic => ⟨Exec.panic, log⟩
  | Exec.ret sorted => ⟨Exec.ret (sorted, none), log⟩

/-- The request of one iteration: `&github.ListOptions{Page: page, PerPage: 100}`. -/
def pageRequest (page : Nat) : ListOptions := ⟨page, 100⟩

/-- The `for` loop of `Releases` from the state `(page, result)`; `log` holds
the requests issued so far. `none` when the fuel is used up. -/
def gitHub.Releases.loop (sv : Semver) (g : gitHub) (project : String) (all : Bool) :
    Nat → Nat → List Release → List ListOptions →
      Option (Run (List Release × Option GoError))
  | 0, _, _, _ => none
  | fuel + 1, page, result, log =>
    let opts := pageRequest page
    match g.client.ListReleases g.org project opts with
    | (releases, resp, err) =>
      match err with
      | some e => some ⟨Exec.ret ([], some (GoError.client e)), log ++ [opts]⟩
      | none =>
        let result := gitHub.Releases.collect result releases
        if !all then some (gitHub.Releases.finish sv result (log ++ [opts]))
        else
          match resp with
          | none => some ⟨Exec.panic, log ++ [opts]⟩
          | some rsp =>
            if rsp.NextPage = 0 then some (gitHub.Releases.finish sv result (log ++ [opts]))
            else gitHub.Releases.loop sv g project all fuel rsp.NextPage result (log ++ [opts])

/-- `func (g *gitHub) Releases(project string, all bool) ([]*Release, error)`.
A nil slice and an empty slice are both the empty list. -/
def gitHub.Releases (sv : Semver) (g : gitHub) (project : String) (all : Bool) (fuel : Nat) :
    Option (Run (List Release × Option GoError)) :=
  gitHub.Releases.loop sv g project all fuel 1 [] []

/-- `func (g *gitHub) Release(project, tag string) (*Release, error)`. The
status code of `resp` is read before `err` is looked at. -/
def gitHub.Release (g : gitHub) (project tag : String) : Exec (Option Release × Option GoError) :=
  match g.client.GetReleaseByTag g.org project tag with
  | (release, resp, err) =>
    match resp with
    | none => Exec.panic
    | some rsp =>
      if rsp.StatusCode = StatusNotFound then Exec.ret (none, some ErrNotFound)
      else
        match err with
        | some e => Exec.ret (none, some (GoError.client e))
        | none =>
          match release with
          | none => Exec.panic
          | some rel =>
            match toRelease rel with
            | some r => Exec.ret (some r, none)
            | none => Exec.ret (none, some ErrNotFound)

/-! ## A semantic-version library -/

/-- Modelled from the spec: the semantic-version library
(`github.com/Masterminds/semver`) is not part of the repository. A version is
`MAJOR.MINOR.PATCH(-prerelease)(+build)`; `pre` holds the dot-separated
prerelease identifiers (empty when there is none). -/
structure semver.Version where
  major : Nat
  minor : Nat
  patch : Nat
  pre : List (List Char)
  metadata : List Char
  deriving DecidableEq, Repr

/-- Modelled from the spec: part of the version parser, which is not in the
repository. Cuts a string at the first occurrence of `sep`: the part before it
and, when `sep` occurs, the part after it. -/
def semver.cut (sep : Char) : List Char → List Char × Option (List Char)
  | [] => ([], none)
  | c :: cs =>
    if c = sep then ([], some cs)
    else ((semver.cut sep cs).1.cons c, (semver.cut sep cs).2)

/-- Modelled from the spec: part of the version parser, which is not in the
repository. Splits a string at every occurrence of `sep`. -/
def semver.fields (sep : Char) : List Char → List (List Char)
  | [] => [[]]
  | c :: cs =>
    if c = sep then [] :: semver.fields sep cs
    else
      match semver.fields sep cs with
      | [] => [[c]]
      | f :: fs => (c :: f) :: fs

/-- Modelled from the spec: part of the version parser, which is not in the
repository. A non-empty run of decimal digits. -/
def semver.isNumeric (s : List Char) : Bool :=
  !s.isEmpty && s.all Char.isDigit

/-- Modelled from the spec: part of the version parser, which is not in the
repository. The value of a run of decimal digits. -/
def semver.value (s : List Char) : Nat :=
  s.foldl (fun n c => 10 * n + (c.toNat - 48)) 0

/-- Modelled from the spec: part of the version parser, which is not in the
repository. A non-empty identifier over `[0-9A-Za-z-]`. -/
def semver.isIdentifier (s : List Char) : Bool :=
  !s.isEmpty && s.all (fun c => c.isAlphanum || c = '-')

/-- Modelled from the spec: part of the version parser, which is not in the
repository. The identifiers of an optional `-prerelease` or `+build` part:
absent gives no identifiers; present, every dot-separated field must be an
identifier. -/
def semver.identifiers : Option (List Char) → Option (List (List Char))
  | none => some []
  | some s =>
    if (semver.fields '.' s).all semver.isIdentifier then some (semver.fields '.' s)
    else none

/-- Modelled from the spec: the parser of the semantic-version library, which is
not part of the repository. It accepts `MAJOR.MINOR.PATCH` with an optional
leading `v`, an optional `-prerelease` and an optional `+build`, and reports an
error (`none`) on anything else. -/
def semver.NewVersion (v : String) : Option semver.Version :=
  let s := match v.data with
    | 'v' :: rest => rest
    | other => other
  let (body, build) := semver.cut '+' s
  let (core, pre) := semver.cut '-' body
  match semver.identifiers build, semver.identifiers pre, semver.fields '.' core with
  | some _, some ids, [a, b, c] =>
    if semver.isNumeric a && semver.isNumeric b && semver.isNumeric c then
      some ⟨semver.value a, semver.value b, semver.value c, ids, build.getD []⟩
    else none
  | _, _, _ => none

/-- Modelled from the spec: part of the version order, which is not in the
repository. Order of two strings by code point, character by character; a
proper initial segment comes first. -/
def semver.textLess : List Char → List Char → Bool
  | [], [] => false
  | [], _ :: _ => true
  | _ :: _, [] => false
  | a :: as, b :: bs =>
    if a.toNat < b.toNat then true
    else if b.toNat < a.toNat then false
    else semver.textLess as bs

/-- Modelled from the spec: part of the version order, which is not in the
repository. Order of two prerelease identifiers: numeric ones by value, a
numeric one before an alphanumeric one, alphanumeric ones as text. -/
def semver.identifierLess (a b : List Char) : Bool :=
  match semver.isNumeric a, semver.isNumeric b with
  | true, true => decide (semver.value a < semver.value b)
  | true, false => true
  | false, true => false
  | false, false => semver.textLess a b

/-- Modelled from the spec: part of the version order, which is not in the
repository. Order of two prerelease identifier lists, field by field; when all
shared fields are equal the shorter list comes first. -/
def semver.prereleaseLess : List (List Char) → List (List Char) → Bool
  | [], [] => false
  | [], _ :: _ => true
  | _ :: _, [] => false
  | a :: as, b :: bs =>
    if semver.identifierLess a b then true
    else if semver.identifierLess b a then false
    else semver.prereleaseLess as bs

/-- Modelled from the spec: `LessThan` of the semantic-version library, which is
not part of the repository. Major, minor and patch are compared as numbers; on
equal cores a version with a prerelease comes before the one without, and two
prereleases are compared field by field. Build metadata is ignored. -/
def semver.LessThan (v o : semver.Version) : Bool :=
  if v.major ≠ o.major then decide (v.major < o.major)
  else if v.minor ≠ o.minor then decide (v.minor < o.minor)
  else if v.patch ≠ o.patch then decide (v.patch < o.patch)
  else
    match v.pre, o.pre with
    | [], _ => false
    | _ :: _, [] => true
    | p :: ps, q :: qs => semver.prereleaseLess (p :: ps) (q :: qs)

/-- Modelled from the spec: the semantic-version library as the service uses
it, standing in for `github.com/Masterminds/semver`, which is not part of the
repository. -/
def semverLib : Semver := ⟨semver.Version, semver.NewVersion, semver.LessThan⟩

/-! ## Derived notions used in the statements -/

/-- The asset carries a name and that name is exactly `docs.tar.gz`. -/
def isDocsAsset (a : ReleaseAsset) : Bool :=
  decide (a.Name = some "docs.tar.gz")

/-- The items of the page that a request returns. -/
def gitHub.pageItems (g : gitHub) (project : String) (opts : ListOptions) :
    List RepositoryRelease :=
  (g.client.ListReleases g.org project opts).1

/-- The releases that `toRelease` keeps among the items of the given requests,
in request order. -/
def gitHub.survivors (g : gitHub) (project : String) (log : List ListOptions) :
    List Docsrv.Release :=
  (log.flatMap (g.pageItems project)).filterMap toRelease

/-- Starting at `page`, every fetch succeeds with a response whose non-zero
`NextPage` is the next page of the list. -/
def gitHub.follows (g : gitHub) (project : String) : Nat → List Nat → Bool
  | _, [] => true
  | page, next :: rest =>
    match g.client.ListReleases g.org project (pageRequest page) with
    | (_, some rsp, none) =>
      rsp.NextPage == next && next != 0 && gitHub.follows g project next rest
    | _ => false

/-- The last page of the walk `page :: rest`. -/
def lastPage : Nat → List Nat → Nat
  | page, [] => page
  | _, next :: rest => lastPage next rest

/-- The test `version(a.Tag) ≤ version(b.Tag)`: both tags parse and
`version(b.Tag)` is not less than `version(a.Tag)`. -/
def versionLE (sv : Semver) (a b : Release) : Bool :=
  match sv.NewVersion a.Tag, sv.NewVersion b.Tag with
  | some va, some vb => !sv.LessThan vb va
  | _, _ => false

/-- The order of the result: `version(a.Tag) ≤ version(b.Tag)`. -/
def VersionLE (sv : Semver) (a b : Release) : Prop :=
  versionLE sv a b = true

/-- The tag of the release is one the parser accepts. -/
def tagParses (sv : Semver) (x : Release) : Bool :=
  (sv.NewVersion x.Tag).isSome

/-- The comparison of `byTag.Less`, on the two elements rather than on their
indices. -/
def byTag.lessOf (sv : Semver) (bi bj : Release) : Exec Bool :=
  match newVersion sv bi.Tag with
  | Exec.panic => Exec.panic
  | Exec.ret vi =>
    match newVersion sv bj.Tag with
    | Exec.panic => Exec.panic
    | Exec.ret vj => Exec.ret (sv.LessThan vi vj)

/-- What the inner loop of `insertionSort` does to the part left of `x`, held
nearest element first: `x` moves past every element it is less than. -/
def insertionSort.place (sv : Semver) (x : Release) : List Release → Exec (List Release)
  | [] => Exec.ret [x]
  | p :: ps =>
    match byTag.lessOf sv x p with
    | Exec.panic => Exec.panic
    | Exec.ret false => Exec.ret (x :: p :: ps)
    | Exec.ret true =>
      match insertionSort.place sv x ps with
      | Exec.panic => Exec.panic
      | Exec.ret l => Exec.ret (p :: l)

/-- What the outer loop of `insertionSort` does: `placed` is the part already
handled, nearest element first, and the second list is still to be placed. -/
def insertionSort.run (sv : Semver) : List Release → List Release → Exec (List Release)
  | placed, [] => Exec.ret placed.reverse
  | placed, x :: rest =>
    match insertionSort.place sv x placed with
    | Exec.panic => Exec.panic
    | Exec.ret l => insertionSort.run sv l rest

/-- The contract of `LessThan` that ordering relies on: of two versions at most
one is less than the other. -/
def Semver.Asymmetric (sv : Semver) : Prop :=
  ∀ a b : sv.Version, sv.LessThan a b = true → sv.LessThan b a = false

/-! ## Concrete remotes used as worked examples -/

/-- An asset named `docs.tar.gz` with the given download URL. -/
def docsAsset (url : String) : ReleaseAsset := ⟨some "docs.tar.gz", some url⟩

/-- A release with both indicators explicitly false and one documentation asset. -/
def published (tag url : String) : RepositoryRelease :=
  ⟨some tag, some false, some false, [docsAsset url]⟩

/-- A service of organisation `acme` whose client answers a page request by
`list` of the page number and every lookup by tag with `single`. -/
def service (list : Nat → List RepositoryRelease × Option Response × Option ClientError)
    (single : Option RepositoryRelease × Option Response × Option ClientError) : gitHub :=
  ⟨"", "acme", ⟨fun _ _ opts => list opts.Page, fun _ _ _ => single⟩⟩

/-- A draft that carries a valid documentation asset. -/
def draftWithDocs : RepositoryRelease :=
  ⟨some "v1.0.0", some true, none, [docsAsset "https://host/v1.0.0/docs.tar.gz"]⟩

/-- One page holding `v1.2.0`, `v1.10.0`, `v1.3.0` in that order. -/
def threeTags : gitHub :=
  service
    (fun _ => ([published "v1.2.0" "u2", published "v1.10.0" "u10", published "v1.3.0" "u3"],
      some ⟨200, 0⟩, none))
    (some draftWithDocs, some ⟨200, 0⟩, none)

/-- Two pages: page 1 holds `v1.1.0` and points to page 2, which holds `v1.0.0`
and ends the listing. -/
def twoPages : gitHub :=
  service
    (fun page =>
      if page = 1 then ([published "v1.1.0" "u11"], some ⟨200, 2⟩, none)
      else if page = 2 then ([published "v1.0.0" "u10"], some ⟨200, 0⟩, none)
      else ([], some ⟨200, 0⟩, none))
    (none, some ⟨404, 0⟩, some ⟨"404 Not Found"⟩)

/-- One page holding two releases whose tags are not versions. -/
def untagged : gitHub :=
  service
    (fun _ => ([published "nightly" "u1", published "latest" "u2"], some ⟨200, 0⟩, none))
    (some (published "latest" "u2"), some ⟨200, 0⟩, none)

/-- A remote that cannot be reached: every call ends without an HTTP response. -/
def unreachable : gitHub :=
  service (fun _ => ([], none, some ⟨"dial tcp: i/o timeout"⟩))
    (none, none, some ⟨"dial tcp: i/o timeout"⟩)

/-- Page 1 holds `v1.1.0` and points to page 2, whose fetch is rejected. -/
def secondPageFails : gitHub :=
  service
    (fun page =>
      if page = 1 then ([published "v1.1.0" "u11"], some ⟨200, 2⟩, none)
      else ([], some ⟨403, 0⟩, some ⟨"403 API rate limit exceeded"⟩))
    (none, some ⟨403, 0⟩, some ⟨"403 API rate limit exceeded"⟩)

/-- No indicator at all, and two assets named `docs.tar.gz`, the first of them
without a download URL. -/
def shadowedDocs : RepositoryRelease :=
  ⟨some "v1.0.0", none, none,
    [⟨some "docs.tar.gz", none⟩, docsAsset "https://host/v1.0.0/docs.tar.gz"]⟩

/-- No indicator at all, an unrelated asset, then two assets named `docs.tar.gz`. -/
def bareRelease : RepositoryRelease :=
  ⟨some "v2.0.0", none, none,
    [⟨some "DOCS.tar.gz", some "upper"⟩, docsAsset "first", docsAsset "second"]⟩

/-- One page holding `bareRelease`; the lookup by tag answers with it. -/
def bareRemote : gitHub :=
  service (fun _ => ([bareRelease], some ⟨200, 0⟩, none))
    (some bareRelease, some ⟨200, 0⟩, none)

/-- One page holding a single eligible release whose tag is not a version. -/
def oneUntagged : gitHub :=
  service (fun _ => ([published "latest" "u1"], some ⟨200, 0⟩, none))
    (some (published "latest" "u1"), some ⟨200, 0⟩, none)

/-- One page holding `shadowedDocs`; the lookup by tag answers with it. -/
def shadowedRemote : gitHub :=
  service (fun _ => ([shadowedDocs], some ⟨200, 0⟩, none))
    (some shadowedDocs, some ⟨200, 0⟩, none)

/-- One page holding `v1.0.0` and a release whose tag is not a version. -/
def mixedTags : gitHub :=
  service (fun _ => ([published "v1.0.0" "u1", published "latest" "u2"], some ⟨200, 0⟩, none))
    (none, some ⟨404, 0⟩, some ⟨"404 Not Found"⟩)

/-! ## The eligibility filter: lemmas -/

theorem maybeStr_eq_docs (n : Option String) :
    maybeStr n = "docs.tar.gz" ↔ n = some "docs.tar.gz" := by
  cases n with
  | none => simp [maybeStr]
  | some v => simp [maybeStr]

theorem docsURL_eq_find (assets : List ReleaseAsset) :
    toRelease.docsURL assets =
      match assets.find? isDocsAsset with
      | some a => maybeStr a.BrowserDownloadURL
      | none => "" := by
  induction assets with
  | nil => simp [toRelease.docsURL]
  | cons a rest ih =>
    by_cases h : maybeStr a.Name = "docs.tar.gz"
    · have h2 := (maybeStr_eq_docs a.Name).1 h
      simp [toRelease.docsURL, List.find?, isDocsAsset, h2, maybeStr]
    · have h2 : ¬ a.Name = some "docs.tar.gz" := fun e => h ((maybeStr_eq_docs a.Name).2 e)
      simp [toRelease.docsURL, List.find?, isDocsAsset, h, h2, ih]

theorem docsURL_of_no_asset (assets : List ReleaseAsset)
    (h : ∀ a ∈ assets, a.Name ≠ some "docs.tar.gz") : toRelease.docsURL assets = "" := by
  induction assets with
  | nil => simp [toRelease.docsURL]
  | cons a rest ih =>
    have h1 : ¬ maybeStr a.Name = "docs.tar.gz" := by
      rw [maybeStr_eq_docs]; exact h a (List.mem_cons_self _ _)
    have h2 := ih (fun b hb => h b (List.mem_cons_of_mem _ hb))
    simp [toRelease.docsURL, h1, h2]

theorem toRelease_eq_some (r : RepositoryRelease) (x : Release) :
    toRelease r = some x ↔
      maybeBool r.Draft = false ∧ maybeBool r.Prerelease = false ∧
      toRelease.docsURL r.Assets ≠ "" ∧
      x = ⟨maybeStr r.TagName, toRelease.docsURL r.Assets⟩ := by
  unfold toRelease
  by_cases hd : maybeBool r.Draft = true
  · simp [hd]
  · by_cases hp : maybeBool r.Prerelease = true
    · simp [hp]
    · by_cases hu : toRelease.docsURL r.Assets = ""
      · simp [hd, hp, hu]
      · simp [hd, hp, hu, eq_comm]

theorem collect_eq (result : List Release) (items : List RepositoryRelease) :
    gitHub.Releases.collect result items = result ++ items.filterMap toRelease := by
  induction items generalizing result with
  | nil => simp [gitHub.Releases.collect]
  | cons r rest ih =>
    cases h : toRelease r with
    | none => simp [gitHub.Releases.collect, h, ih, List.filterMap_cons]
    | some x => simp [gitHub.Releases.collect, h, ih, List.filterMap_cons]

/-! ## The sort: index form and list form agree -/

theorem Less_append (sv : Semver) (pre post : List Release) (p x : Release) :
    byTag.Less sv (pre ++ p :: x :: post) (pre.length + 1) pre.length
      = byTag.lessOf sv x p := by
  have h1 : (pre ++ p :: x :: post)[pre.length + 1]? = some x := by
    rw [List.getElem?_append_right (by omega)]
    simp
  have h2 : (pre ++ p :: x :: post)[pre.length]? = some p := by
    rw [List.getElem?_append_right (by omega)]
    simp
  simp only [byTag.Less, byTag.lessOf, h1, h2]

theorem Swap_append (pre post : List Release) (p x : Release) :
    byTag.Swap (pre ++ p :: x :: post) (pre.length + 1) pre.length
      = Exec.ret (pre ++ x :: p :: post) := by
  have h1 : (pre ++ p :: x :: post)[pre.length + 1]? = some x := by
    rw [List.getElem?_append_right (by omega)]
    simp
  have h2 : (pre ++ p :: x :: post)[pre.length]? = some p := by
    rw [List.getElem?_append_right (by omega)]
    simp
  simp only [byTag.Swap, h1, h2]
  congr 1
  rw [List.set_append_right _ _ (by omega), List.set_append_right _ _ (by omega)]
  simp

theorem inner_eq_place (sv : Semver) (x : Release) (pre post : List Release) :
    insertionSort.inner sv pre.length (pre ++ x :: post) =
      match insertionSort.place sv x pre.reverse with
      | Exec.panic => Exec.panic
      | Exec.ret l => Exec.ret (l.reverse ++ post) := by
  induction pre using List.reverseRecOn generalizing post with
  | nil => simp [insertionSort.inner, insertionSort.place]
  | append_singleton pre p ih =>
    have hlen : (pre ++ [p]).length = pre.length + 1 := by simp
    have hdata : pre ++ [p] ++ x :: post = pre ++ p :: x :: post := by simp
    have hrev : (pre ++ [p]).reverse = p :: pre.reverse := by simp
    rw [hlen, hdata, hrev]
    simp only [insertionSort.inner, insertionSort.place, Less_append]
    cases hless : byTag.lessOf sv x p with
    | panic => rfl
    | ret b =>
      cases b with
      | false => simp
      | true =>
        simp only [Swap_append]
        rw [ih (p :: post)]
        cases hrec : insertionSort.place sv x pre.reverse with
        | panic => rfl
        | ret l => simp

theorem place_length (sv : Semver) (x : Release) (placed l : List Release)
    (h : insertionSort.place sv x placed = Exec.ret l) : l.length = placed.length + 1 := by
  induction placed generalizing l with
  | nil =>
    simp only [insertionSort.place, Exec.ret.injEq] at h
    subst h; rfl
  | cons p ps ih =>
    simp only [insertionSort.place] at h
    cases hless : byTag.lessOf sv x p with
    | panic => simp [hless] at h
    | ret b =>
      cases b with
      | false =>
        simp only [hless, Exec.ret.injEq] at h
        subst h; rfl
      | true =>
        cases hrec : insertionSort.place sv x ps with
        | panic => simp [hless, hrec] at h
        | ret l2 =>
          simp only [hless, hrec, Exec.ret.injEq] at h
          subst h
          simp [ih l2 hrec]

theorem outer_eq_run (sv : Semver) (rest pre : List Release) :
    insertionSort.outer sv rest.length pre.length (pre ++ rest)
      = insertionSort.run sv pre.reverse rest := by
  induction rest generalizing pre with
  | nil => simp [insertionSort.outer, insertionSort.run]
  | cons x post ih =>
    simp only [List.length_cons, insertionSort.outer, insertionSort.run, inner_eq_place]
    cases hplace : insertionSort.place sv x pre.reverse with
    | panic => rfl
    | ret l =>
      have hlen : l.reverse.length = pre.length + 1 := by
        simp [place_length sv x pre.reverse l hplace]
      have := ih l.reverse
      rw [hlen, List.reverse_reverse] at this
      simpa using this

theorem sortSort_nil (sv : Semver) : sortSort sv [] = Exec.ret [] := by
  simp [sortSort, insertionSort, byTag.Len, insertionSort.outer]

theorem sortSort_cons (sv : Semver) (d : Release) (rest : List Release) :
    sortSort sv (d :: rest) = insertionSort.run sv [d] rest := by
  have := outer_eq_run sv rest [d]
  simpa [sortSort, insertionSort, byTag.Len] using this

/-! ## The sort: rearrangement, order, panics -/

theorem VersionLE_iff (sv : Semver) (a b : Release) :
    VersionLE sv a b ↔
      ∃ va vb, sv.NewVersion a.Tag = some va ∧ sv.NewVersion b.Tag = some vb ∧
        sv.LessThan vb va = false := by
  unfold VersionLE versionLE
  cases ha : sv.NewVersion a.Tag with
  | none => simp
  | some va =>
    cases hb : sv.NewVersion b.Tag with
    | none => simp
    | some vb => simp

theorem lessOf_eq_ret (sv : Semver) (a b : Release) (c : Bool) :
    byTag.lessOf sv a b = Exec.ret c ↔
      ∃ va vb, sv.NewVersion a.Tag = some va ∧ sv.NewVersion b.Tag = some vb ∧
        sv.LessThan va vb = c := by
  unfold byTag.lessOf newVersion
  cases ha : sv.NewVersion a.Tag with
  | none => simp
  | some va =>
    cases hb : sv.NewVersion b.Tag with
    | none => simp
    | some vb => simp

theorem lessOf_eq_panic (sv : Semver) (a b : Release) :
    byTag.lessOf sv a b = Exec.panic ↔ tagParses sv a = false ∨ tagParses sv b = false := by
  unfold byTag.lessOf newVersion tagParses
  cases ha : sv.NewVersion a.Tag with
  | none => simp
  | some va =>
    cases hb : sv.NewVersion b.Tag with
    | none => simp
    | some vb => simp

theorem place_perm (sv : Semver) (x : Release) (placed l : List Release)
    (h : insertionSort.place sv x placed = Exec.ret l) : l.Perm (x :: placed) := by
  induction placed generalizing l with
  | nil =>
    simp only [insertionSort.place, Exec.ret.injEq] at h
    subst h; exact List.Perm.refl _
  | cons p ps ih =>
    simp only [insertionSort.place] at h
    cases hless : byTag.lessOf sv x p with
    | panic => simp [hless] at h
    | ret b =>
      cases b with
      | false =>
        simp only [hless, Exec.ret.injEq] at h
        subst h; exact List.Perm.refl _
      | true =>
        cases hrec : insertionSort.place sv x ps with
        | panic => simp [hless, hrec] at h
        | ret l2 =>
          simp only [hless, hrec, Exec.ret.injEq] at h
          subst h
          exact ((ih l2 hrec).cons p).trans (List.Perm.swap x p ps)

theorem run_perm (sv : Semver) (rest placed s : List Release)
    (h : insertionSort.run sv placed rest = Exec.ret s) : s.Perm (placed.reverse ++ rest) := by
  induction rest generalizing placed with
  | nil =>
    simp only [insertionSort.run, Exec.ret.injEq] at h
    subst h; simp
  | cons x post ih =>
    simp only [insertionSort.run] at h
    cases hplace : insertionSort.place sv x placed with
    | panic => simp [hplace] at h
    | ret l =>
      simp only [hplace] at h
      refine (ih l h).trans ?_
      have h1 : l.reverse.Perm (placed.reverse ++ [x]) :=
        (List.reverse_perm l).trans ((place_perm sv x placed l hplace).trans
          ((List.perm_append_singleton x placed).symm.trans
            (List.Perm.append_right [x] (List.reverse_perm placed).symm)))
      simpa using List.Perm.append_right post h1

theorem sortSort_perm (sv : Semver) (data s : List Release)
    (h : sortSort sv data = Exec.ret s) : s.Perm data := by
  cases data with
  | nil =>
    rw [sortSort_nil] at h
    simp only [Exec.ret.injEq] at h
    subst h; exact List.Perm.refl _
  | cons d rest =>
    rw [sortSort_cons] at h
    simpa using run_perm sv rest [d] s h

theorem place_head (sv : Semver) (x : Release) (placed l : List Release)
    (h : insertionSort.place sv x placed = Exec.ret l) :
    ∀ y ∈ l.head?, y = x ∨ y ∈ placed.head? := by
  cases placed with
  | nil =>
    simp only [insertionSort.place, Exec.ret.injEq] at h
    subst h; simp
  | cons p ps =>
    simp only [insertionSort.place] at h
    cases hless : byTag.lessOf sv x p with
    | panic => simp [hless] at h
    | ret b =>
      cases b with
      | false =>
        simp only [hless, Exec.ret.injEq] at h
        subst h; simp
      | true =>
        cases hrec : insertionSort.place sv x ps with
        | panic => simp [hless, hrec] at h
        | ret l2 =>
          simp only [hless, hrec, Exec.ret.injEq] at h
          subst h; simp

theorem place_chain (sv : Semver) (hsv : sv.Asymmetric) (x : Release)
    (placed l : List Release)
    (hc : List.Chain' (fun u v => VersionLE sv v u) placed)
    (h : insertionSort.place sv x placed = Exec.ret l) :
    List.Chain' (fun u v => VersionLE sv v u) l := by
  induction placed generalizing l with
  | nil =>
    simp only [insertionSort.place, Exec.ret.injEq] at h
    subst h; simp
  | cons p ps ih =>
    simp only [insertionSort.place] at h
    cases hless : byTag.lessOf sv x p with
    | panic => simp [hless] at h
    | ret b =>
      cases b with
      | false =>
        simp only [hless, Exec.ret.injEq] at h
        subst h
        obtain ⟨vx, vp, hx, hp, hlt⟩ := (lessOf_eq_ret sv x p false).1 hless
        exact List.Chain'.cons ((VersionLE_iff sv p x).2 ⟨vp, vx, hp, hx, hlt⟩) hc
      | true =>
        cases hrec : insertionSort.place sv x ps with
        | panic => simp [hless, hrec] at h
        | ret l2 =>
          simp only [hless, hrec, Exec.ret.injEq] at h
          subst h
          obtain ⟨vx, vp, hx, hp, hlt⟩ := (lessOf_eq_ret sv x p true).1 hless
          rw [List.chain'_cons'] at hc ⊢
          refine ⟨?_, ih l2 hc.2 hrec⟩
          intro y hy
          rcases place_head sv x ps l2 hrec y hy with hyx | hyp
          · subst hyx
            exact (VersionLE_iff sv y p).2 ⟨vx, vp, hx, hp, hsv vx vp hlt⟩
          · exact hc.1 y hyp

theorem run_chain (sv : Semver) (hsv : sv.Asymmetric) (rest placed s : List Release)
    (hc : List.Chain' (fun u v => VersionLE sv v u) placed)
    (h : insertionSort.run sv placed rest = Exec.ret s) :
    List.Chain' (VersionLE sv) s := by
  induction rest generalizing placed with
  | nil =>
    simp only [insertionSort.run, Exec.ret.injEq] at h
    subst h
    rw [List.chain'_reverse]
    exact hc
  | cons x post ih =>
    simp only [insertionSort.run] at h
    cases hplace : insertionSort.place sv x placed with
    | panic => simp [hplace] at h
    | ret l =>
      simp only [hplace] at h
      exact ih l (place_chain sv hsv x placed l hc hplace) h

theorem sortSort_chain (sv : Semver) (hsv : sv.Asymmetric) (data s : List Release)
    (h : sortSort sv data = Exec.ret s) : List.Chain' (VersionLE sv) s := by
  cases data with
  | nil =>
    rw [sortSort_nil] at h
    simp only [Exec.ret.injEq] at h
    subst h; simp
  | cons d rest =>
    rw [sortSort_cons] at h
    exact run_chain sv hsv rest [d] s (by simp) h

theorem place_ret_of_parses (sv : Semver) (x : Release) (placed : List Release)
    (hx : tagParses sv x = true) (hp : ∀ y ∈ placed, tagParses sv y = true) :
    ∃ l, insertionSort.place sv x placed = Exec.ret l := by
  induction placed with
  | nil => exact ⟨[x], rfl⟩
  | cons p ps ih =>
    simp only [insertionSort.place]
    cases hless : byTag.lessOf sv x p with
    | panic =>
      rcases (lessOf_eq_panic sv x p).1 hless with h | h
      · rw [hx] at h; cases h
      · rw [hp p (List.mem_cons_self _ _)] at h; cases h
    | ret b =>
      cases b with
      | false => exact ⟨_, rfl⟩
      | true =>
        obtain ⟨l, hl⟩ := ih (fun y hy => hp y (List.mem_cons_of_mem _ hy))
        exact ⟨p :: l, by simp [hl]⟩

theorem place_panic_of_bad (sv : Semver) (x p : Release) (ps : List Release)
    (h : tagParses sv x = false ∨ tagParses sv p = false) :
    insertionSort.place sv x (p :: ps) = Exec.panic := by
  simp [insertionSort.place, (lessOf_eq_panic sv x p).2 h]

theorem run_ret_of_parses (sv : Semver) (rest placed : List Release)
    (hp : ∀ y ∈ placed, tagParses sv y = true) (hr : ∀ y ∈ rest, tagParses sv y = true) :
    ∃ s, insertionSort.run sv placed rest = Exec.ret s := by
  induction rest generalizing placed with
  | nil => exact ⟨_, rfl⟩
  | cons x post ih =>
    obtain ⟨l, hl⟩ := place_ret_of_parses sv x placed (hr x (List.mem_cons_self _ _)) hp
    simp only [insertionSort.run, hl]
    refine ih l ?_ (fun y hy => hr y (List.mem_cons_of_mem _ hy))
    intro y hy
    rcases List.mem_cons.1 ((place_perm sv x placed l hl).mem_iff.1 hy) with h | h
    · subst h; exact hr y (List.mem_cons_self _ _)
    · exact hp y h

theorem run_panic_of_bad (sv : Semver) (rest placed : List Release)
    (hne : placed ≠ []) (hp : ∀ y ∈ placed, tagParses sv y = true)
    (hbad : ∃ y ∈ rest, tagParses sv y = false) :
    insertionSort.run sv placed rest = Exec.panic := by
  induction rest generalizing placed with
  | nil => obtain ⟨y, hy, _⟩ := hbad; cases hy
  | cons x post ih =>
    cases placed with
    | nil => exact absurd rfl hne
    | cons p ps =>
      cases hx : tagParses sv x with
      | false => simp [insertionSort.run, place_panic_of_bad sv x p ps (Or.inl hx)]
      | true =>
        obtain ⟨l, hl⟩ := place_ret_of_parses sv x (p :: ps) hx hp
        simp only [insertionSort.run, hl]
        have hperm := place_perm sv x (p :: ps) l hl
        refine ih l ?_ ?_ ?_
        · intro hnil
          subst hnil
          exact absurd hperm.length_eq (by simp)
        · intro y hy
          rcases List.mem_cons.1 (hperm.mem_iff.1 hy) with h | h
          · subst h; exact hx
          · exact hp y h
        · obtain ⟨y, hy, hyb⟩ := hbad
          rcases List.mem_cons.1 hy with h | h
          · subst h; rw [hx] at hyb; cases hyb
          · exact ⟨y, h, hyb⟩

theorem sortSort_single (sv : Semver) (d : Release) : sortSort sv [d] = Exec.ret [d] := by
  rw [sortSort_cons]; rfl

theorem sortSort_ret_of_parses (sv : Semver) (data : List Release)
    (h : ∀ y ∈ data, tagParses sv y = true) : ∃ s, sortSort sv data = Exec.ret s := by
  cases data with
  | nil => exact ⟨[], sortSort_nil sv⟩
  | cons d rest =>
    rw [sortSort_cons]
    exact run_ret_of_parses sv rest [d]
      (fun y hy => h y (by
        have hyd : y = d := by simpa using hy
        subst hyd; exact List.mem_cons_self _ _))
      (fun y hy => h y (List.mem_cons_of_mem _ hy))

theorem sortSort_panic_of_bad (sv : Semver) (data : List Release)
    (hlen : 2 ≤ data.length) (hbad : ∃ y ∈ data, tagParses sv y = false) :
    sortSort sv data = Exec.panic := by
  cases data with
  | nil => simp at hlen
  | cons d rest =>
    cases rest with
    | nil => simp at hlen
    | cons x post =>
      rw [sortSort_cons]
      cases hd : tagParses sv d with
      | false =>
        simp [insertionSort.run, place_panic_of_bad sv x d [] (Or.inr hd)]
      | true =>
        refine run_panic_of_bad sv (x :: post) [d] (by simp) ?_ ?_
        · intro y hy
          have : y = d := by simpa using hy
          subst this; exact hd
        · obtain ⟨y, hy, hyb⟩ := hbad
          rcases List.mem_cons.1 hy with h | h
          · subst h; rw [hd] at hyb; cases hyb
          · exact ⟨y, h, hyb⟩

/-- Whenever the sort returns a slice of two or more, every tag in it parses. -/
theorem sortSort_ret_parses (sv : Semver) (data s : List Release)
    (h : sortSort sv data = Exec.ret s) (hlen : 2 ≤ s.length) :
    ∀ y ∈ s, tagParses sv y = true := by
  intro y hy
  have hperm := sortSort_perm sv data s h
  by_contra hcon
  have hyb : tagParses sv y = false := by simpa using hcon
  have := sortSort_panic_of_bad sv data (by rw [← hperm.length_eq]; exact hlen)
    ⟨y, hperm.mem_iff.1 hy, hyb⟩
  rw [this] at h
  cases h

/-! ## The page loop -/

theorem survivors_nil (g : gitHub) (project : String) : g.survivors project [] = [] := rfl

theorem survivors_cons (g : gitHub) (project : String) (o : ListOptions)
    (log : List ListOptions) :
    g.survivors project (o :: log)
      = (g.pageItems project o).filterMap toRelease ++ g.survivors project log := by
  simp [gitHub.survivors, List.filterMap_append]

theorem mem_survivors (g : gitHub) (project : String) (log : List ListOptions) (x : Release) :
    x ∈ g.survivors project log ↔
      ∃ o ∈ log, ∃ item ∈ g.pageItems project o, toRelease item = some x := by
  simp only [gitHub.survivors, List.mem_filterMap, List.mem_flatMap]
  constructor
  · rintro ⟨item, ⟨o, ho, hitem⟩, hx⟩
    exact ⟨o, ho, item, hitem, hx⟩
  · rintro ⟨o, ho, item, hitem, hx⟩
    exact ⟨item, ⟨o, ho, hitem⟩, hx⟩

theorem loop_succ_err (sv : Semver) (g : gitHub) (project : String) (all : Bool)
    (fuel page : Nat) (acc : List Release) (log : List ListOptions)
    (items : List RepositoryRelease) (resp : Option Response) (e : ClientError)
    (h : g.client.ListReleases g.org project (pageRequest page) = (items, resp, some e)) :
    gitHub.Releases.loop sv g project all (fuel + 1) page acc log =
      some ⟨Exec.ret ([], some (GoError.client e)), log ++ [pageRequest page]⟩ := by
  simp only [gitHub.Releases.loop, h]

theorem loop_succ_first (sv : Semver) (g : gitHub) (project : String)
    (fuel page : Nat) (acc : List Release) (log : List ListOptions)
    (items : List RepositoryRelease) (resp : Option Response)
    (h : g.client.ListReleases g.org project (pageRequest page) = (items, resp, none)) :
    gitHub.Releases.loop sv g project false (fuel + 1) page acc log =
      some (gitHub.Releases.finish sv (acc ++ items.filterMap toRelease)
        (log ++ [pageRequest page])) := by
  simp [gitHub.Releases.loop, h, collect_eq]

theorem loop_succ_noresp (sv : Semver) (g : gitHub) (project : String)
    (fuel page : Nat) (acc : List Release) (log : List ListOptions)
    (items : List RepositoryRelease)
    (h : g.client.ListReleases g.org project (pageRequest page) = (items, none, none)) :
    gitHub.Releases.loop sv g project true (fuel + 1) page acc log =
      some ⟨Exec.panic, log ++ [pageRequest page]⟩ := by
  simp [gitHub.Releases.loop, h]

theorem loop_succ_last (sv : Semver) (g : gitHub) (project : String)
    (fuel page : Nat) (acc : List Release) (log : List ListOptions)
    (items : List RepositoryRelease) (rsp : Response)
    (h : g.client.ListReleases g.org project (pageRequest page) = (items, some rsp, none))
    (hnext : rsp.NextPage = 0) :
    gitHub.Releases.loop sv g project true (fuel + 1) page acc log =
      some (gitHub.Releases.finish sv (acc ++ items.filterMap toRelease)
        (log ++ [pageRequest page])) := by
  simp [gitHub.Releases.loop, h, collect_eq, hnext]

theorem loop_succ_next (sv : Semver) (g : gitHub) (project : String)
    (fuel page : Nat) (acc : List Release) (log : List ListOptions)
    (items : List RepositoryRelease) (rsp : Response)
    (h : g.client.ListReleases g.org project (pageRequest page) = (items, some rsp, none))
    (hnext : rsp.NextPage ≠ 0) :
    gitHub.Releases.loop sv g project true (fuel + 1) page acc log =
      gitHub.Releases.loop sv g project true fuel rsp.NextPage
        (acc ++ items.filterMap toRelease) (log ++ [pageRequest page]) := by
  simp [gitHub.Releases.loop, h, collect_eq, hnext]

theorem finish_fetched (sv : Semver) (l : List Release) (log : List ListOptions) :
    (gitHub.Releases.finish sv l log).fetched = log := by
  unfold gitHub.Releases.finish
  cases sortSort sv l <;> rfl

/-- Whatever the remote does, a finished call has issued at least one request
and ended in one of three ways: a panic, the error of the last fetch with no
releases, or the sort of everything `toRelease` kept on the pages fetched. -/
theorem loop_outcome (sv : Semver) (g : gitHub) (project : String) (all : Bool)
    (fuel page : Nat) (acc : List Release) (log : List ListOptions)
    (run : Run (List Release × Option GoError))
    (h : gitHub.Releases.loop sv g project all fuel page acc log = some run) :
    ∃ newer : List ListOptions, run.fetched = log ++ pageRequest page :: newer ∧
      (run.outcome = Exec.panic ∨
        (∃ e, run.outcome = Exec.ret ([], some (GoError.client e))) ∨
        run = gitHub.Releases.finish sv
          (acc ++ g.survivors project (pageRequest page :: newer)) run.fetched) := by
  induction fuel generalizing page acc log with
  | zero => simp [gitHub.Releases.loop] at h
  | succ fuel ih =>
    rcases hfetch : g.client.ListReleases g.org project (pageRequest page)
      with ⟨items, resp, err⟩
    have hitems : g.pageItems project (pageRequest page) = items := by
      simp [gitHub.pageItems, hfetch]
    have hone : g.survivors project [pageRequest page] = items.filterMap toRelease := by
      rw [survivors_cons, hitems, survivors_nil, List.append_nil]
    cases err with
    | some e =>
      rw [loop_succ_err sv g project all fuel page acc log items resp e hfetch] at h
      simp only [Option.some.injEq] at h
      subst h
      exact ⟨[], rfl, Or.inr (Or.inl ⟨e, rfl⟩)⟩
    | none =>
      cases all with
      | false =>
        rw [loop_succ_first sv g project fuel page acc log items resp hfetch] at h
        simp only [Option.some.injEq] at h
        subst h
        refine ⟨[], finish_fetched _ _ _, Or.inr (Or.inr ?_)⟩
        rw [finish_fetched, hone]
      | true =>
        cases resp with
        | none =>
          rw [loop_succ_noresp sv g project fuel page acc log items hfetch] at h
          simp only [Option.some.injEq] at h
          subst h
          exact ⟨[], rfl, Or.inl rfl⟩
        | some rsp =>
          by_cases hnext : rsp.NextPage = 0
          · rw [loop_succ_last sv g project fuel page acc log items rsp hfetch hnext] at h
            simp only [Option.some.injEq] at h
            subst h
            refine ⟨[], finish_fetched _ _ _, Or.inr (Or.inr ?_)⟩
            rw [finish_fetched, hone]
          · rw [loop_succ_next sv g project fuel page acc log items rsp hfetch hnext] at h
            obtain ⟨newer, hlog, hout⟩ := ih rsp.NextPage _ _ h
            refine ⟨pageRequest rsp.NextPage :: newer, by simpa using hlog, ?_⟩
            rcases hout with hp | he | hf
            · exact Or.inl hp
            · exact Or.inr (Or.inl he)
            · refine Or.inr (Or.inr ?_)
              rw [survivors_cons g project (pageRequest page), hitems, ← List.append_assoc]
              exact hf

theorem follows_cons (g : gitHub) (project : String) (page next : Nat) (rest : List Nat) :
    g.follows project page (next :: rest) = true ↔
      ∃ items rsp,
        g.client.ListReleases g.org project (pageRequest page) = (items, some rsp, none) ∧
        rsp.NextPage = next ∧ next ≠ 0 ∧ g.follows project next rest = true := by
  rcases hfetch : g.client.ListReleases g.org project (pageRequest page)
    with ⟨items, resp, err⟩
  cases resp with
  | none => simp [gitHub.follows, hfetch]
  | some rsp =>
    cases err with
    | some e => simp [gitHub.follows, hfetch]
    | none =>
      simp only [gitHub.follows, hfetch, Bool.and_eq_true, beq_iff_eq, bne_iff_ne, ne_eq,
        Prod.mk.injEq, Option.some.injEq, and_true]
      constructor
      · rintro ⟨⟨h1, h2⟩, h3⟩
        exact ⟨items, rsp, ⟨rfl, rfl⟩, h1, h2, h3⟩
      · rintro ⟨_, _, ⟨_, rfl⟩, h1, h2, h3⟩
        exact ⟨⟨h1, h2⟩, h3⟩

theorem loop_walk_err (sv : Semver) (g : gitHub) (project : String) (all : Bool)
    (rest : List Nat) (page : Nat) (acc : List Release) (log : List ListOptions)
    (e : ClientError)
    (hwalk : g.follows project page rest = true) (hall : rest ≠ [] → all = true)
    (herr : (g.client.ListReleases g.org project (pageRequest (lastPage page rest))).2.2
      = some e)
    (fuel : Nat) (hfuel : rest.length < fuel) :
    gitHub.Releases.loop sv g project all fuel page acc log =
      some ⟨Exec.ret ([], some (GoError.client e)),
        log ++ (page :: rest).map pageRequest⟩ := by
  induction rest generalizing page acc log fuel with
  | nil =>
    obtain ⟨n, rfl⟩ : ∃ n, fuel = n + 1 := ⟨fuel - 1, by simp at hfuel; omega⟩
    rcases hfetch : g.client.ListReleases g.org project (pageRequest page)
      with ⟨items, resp, err⟩
    simp only [lastPage, hfetch] at herr
    subst herr
    rw [loop_succ_err sv g project all n page acc log items resp e hfetch]
    simp
  | cons next rest ih =>
    obtain ⟨n, rfl⟩ : ∃ n, fuel = n + 1 := ⟨fuel - 1, by simp at hfuel; omega⟩
    obtain ⟨items, rsp, hfetch, hnext, hne, hrest⟩ :=
      (follows_cons g project page next rest).1 hwalk
    have ht : all = true := hall (by simp)
    subst ht
    subst hnext
    rw [loop_succ_next sv g project n page acc log items rsp hfetch hne]
    rw [ih rsp.NextPage _ _ hrest (fun _ => rfl) herr n (by simp at hfuel; omega)]
    simp

theorem loop_walk_finish (sv : Semver) (g : gitHub) (project : String) (all : Bool)
    (rest : List Nat) (page : Nat) (acc : List Release) (log : List ListOptions)
    (items : List RepositoryRelease) (resp : Option Response)
    (hwalk : g.follows project page rest = true) (hall : rest ≠ [] → all = true)
    (hlast : g.client.ListReleases g.org project (pageRequest (lastPage page rest))
      = (items, resp, none))
    (hend : all = false ∨ ∃ rsp, resp = some rsp ∧ rsp.NextPage = 0)
    (fuel : Nat) (hfuel : rest.length < fuel) :
    gitHub.Releases.loop sv g project all fuel page acc log =
      some (gitHub.Releases.finish sv
        (acc ++ g.survivors project ((page :: rest).map pageRequest))
        (log ++ (page :: rest).map pageRequest)) := by
  induction rest generalizing page acc log fuel with
  | nil =>
    obtain ⟨n, rfl⟩ : ∃ n, fuel = n + 1 := ⟨fuel - 1, by simp at hfuel; omega⟩
    simp only [lastPage] at hlast
    have hone : g.survivors project [pageRequest page] = items.filterMap toRelease := by
      rw [survivors_cons, survivors_nil, List.append_nil]
      simp [gitHub.pageItems, hlast]
    simp only [List.map_cons, List.map_nil, hone]
    cases all with
    | false => exact loop_succ_first sv g project n page acc log items resp hlast
    | true =>
      rcases hend with h | ⟨rsp, hrsp, hzero⟩
      · cases h
      · subst hrsp
        exact loop_succ_last sv g project n page acc log items rsp hlast hzero
  | cons next rest ih =>
    obtain ⟨n, rfl⟩ : ∃ n, fuel = n + 1 := ⟨fuel - 1, by simp at hfuel; omega⟩
    obtain ⟨items1, rsp, hfetch, hnext, hne, hrest⟩ :=
      (follows_cons g project page next rest).1 hwalk
    have ht : all = true := hall (by simp)
    subst ht
    subst hnext
    rw [loop_succ_next sv g project n page acc log items1 rsp hfetch hne]
    rw [ih rsp.NextPage _ _ hrest (fun _ => rfl) hlast n (by simp at hfuel; omega)]
    have hitems : g.pageItems project (pageRequest page) = items1 := by
      simp [gitHub.pageItems, hfetch]
    simp only [List.map_cons, survivors_cons g project (pageRequest page), hitems]
    simp

/-- A call that returns a list without an error has sorted what `toRelease`
kept on the pages it fetched. -/
theorem Releases_ok_sorted (sv : Semver) (g : gitHub) (project : String) (all : Bool)
    (fuel : Nat) (run : Run (List Release × Option GoError)) (rs : List Release)
    (h : gitHub.Releases sv g project all fuel = some run)
    (hout : run.outcome = Exec.ret (rs, none)) :
    sortSort sv (g.survivors project run.fetched) = Exec.ret rs := by
  obtain ⟨newer, hlog, hcases⟩ := loop_outcome sv g project all fuel 1 [] [] run h
  rw [List.nil_append] at hlog
  rcases hcases with hp | ⟨e, he⟩ | hf
  · rw [hp] at hout; cases hout
  · rw [he] at hout; cases hout
  · rw [List.nil_append, ← hlog] at hf
    rw [hf] at hout
    unfold gitHub.Releases.finish at hout
    cases hsort : sortSort sv (g.survivors project run.fetched) with
    | panic => rw [hsort] at hout; cases hout
    | ret s =>
      rw [hsort] at hout
      simp only [Exec.ret.injEq, Prod.mk.injEq, and_true] at hout
      rw [hout]

/-- A call that returns an error returns no releases with it. -/
theorem Releases_err_nil (sv : Semver) (g : gitHub) (project : String) (all : Bool)
    (fuel : Nat) (run : Run (List Release × Option GoError)) (rs : List Release)
    (e : GoError)
    (h : gitHub.Releases sv g project all fuel = some run)
    (hout : run.outcome = Exec.ret (rs, some e)) : rs = [] := by
  obtain ⟨newer, hlog, hcases⟩ := loop_outcome sv g project all fuel 1 [] [] run h
  rcases hcases with hp | ⟨e2, he⟩ | hf
  · rw [hp] at hout; cases hout
  · rw [he] at hout
    simp only [Exec.ret.injEq, Prod.mk.injEq] at hout
    exact hout.1.symm
  · rw [hf] at hout
    unfold gitHub.Releases.finish at hout
    cases hsort : sortSort sv ([] ++ g.survivors project (pageRequest 1 :: newer)) with
    | panic => rw [hsort] at hout; cases hout
    | ret s => rw [hsort] at hout; cases hout

/-! ## The semantic-version library keeps the contract -/

theorem textLess_asymm (a b : List Char) (h : semver.textLess a b = true) :
    semver.textLess b a = false := by
  induction a generalizing b with
  | nil =>
    cases b with
    | nil => rfl
    | cons d ds => rfl
  | cons c cs ih =>
    cases b with
    | nil => simp [semver.textLess] at h
    | cons d ds =>
      simp only [semver.textLess] at h ⊢
      by_cases h1 : c.toNat < d.toNat
      · have h2 : ¬ d.toNat < c.toNat := by omega
        simp [h2, h1]
      · by_cases h2 : d.toNat < c.toNat
        · simp [h1, h2] at h
        · simp only [h1, h2, if_false] at h ⊢
          exact ih ds h

theorem identifierLess_asymm (a b : List Char) (h : semver.identifierLess a b = true) :
    semver.identifierLess b a = false := by
  unfold semver.identifierLess at h ⊢
  cases ha : semver.isNumeric a <;> cases hb : semver.isNumeric b <;>
    simp only [ha, hb] at h ⊢
  · exact textLess_asymm a b h
  · cases h
  · simp only [decide_eq_true_eq] at h
    simp only [decide_eq_false_iff_not]
    omega

theorem prereleaseLess_asymm (a b : List (List Char))
    (h : semver.prereleaseLess a b = true) : semver.prereleaseLess b a = false := by
  induction a generalizing b with
  | nil =>
    cases b with
    | nil => rfl
    | cons d ds => rfl
  | cons c cs ih =>
    cases b with
    | nil => simp [semver.prereleaseLess] at h
    | cons d ds =>
      simp only [semver.prereleaseLess] at h ⊢
      cases h1 : semver.identifierLess c d with
      | true => simp [identifierLess_asymm c d h1]
      | false =>
        cases h2 : semver.identifierLess d c with
        | true => simp [h1, h2] at h
        | false =>
          simp only [h1, h2] at h ⊢
          exact ih ds (by simpa using h)

theorem semverLib_asymmetric : semverLib.Asymmetric := by
  intro a b h
  change semver.LessThan a b = true at h
  change semver.LessThan b a = false
  unfold semver.LessThan at h ⊢
  by_cases h1 : a.major = b.major
  · by_cases h2 : a.minor = b.minor
    · by_cases h3 : a.patch = b.patch
      · simp only [h1, h2, h3, ne_eq, not_true_eq_false, if_false] at h ⊢
        cases hpa : a.pre with
        | nil => simp [hpa] at h
        | cons p ps =>
          cases hpb : b.pre with
          | nil => rfl
          | cons q qs =>
            simp only [hpa, hpb] at h ⊢
            exact prereleaseLess_asymm _ _ h
      · have h3b : ¬ b.patch = a.patch := fun e => h3 e.symm
        simp only [h1, h2, h3, h3b, ne_eq, not_true_eq_false, not_false_eq_true, if_true,
          if_false, decide_eq_true_eq] at h ⊢
        simp only [decide_eq_false_iff_not]
        omega
    · have h2b : ¬ b.minor = a.minor := fun e => h2 e.symm
      simp only [h1, h2, h2b, ne_eq, not_true_eq_false, not_false_eq_true, if_true,
        if_false, decide_eq_true_eq] at h ⊢
      simp only [decide_eq_false_iff_not]
      omega
  · have h1b : ¬ b.major = a.major := fun e => h1 e.symm
    simp only [h1, h1b, ne_eq, not_false_eq_true, if_true, decide_eq_true_eq] at h ⊢
    simp only [decide_eq_false_iff_not]
    omega

theorem sortSort_ret_of_few_or_parses (sv : Semver) (data : List Release)
    (h : 2 ≤ data.length → ∀ y ∈ data, tagParses sv y = true) :
    ∃ s, sortSort sv data = Exec.ret s := by
  cases data with
  | nil => exact ⟨[], sortSort_nil sv⟩
  | cons d rest =>
    cases rest with
    | nil => exact ⟨[d], sortSort_single sv d⟩
    | cons x post => exact sortSort_ret_of_parses sv _ (h (by simp))

theorem finish_of_sort (sv : Semver) (data s : List Release) (log : List ListOptions)
    (h : sortSort sv data = Exec.ret s) :
    gitHub.Releases.finish sv data log = ⟨Exec.ret (s, none), log⟩ := by
  simp [gitHub.Releases.finish, h]

theorem finish_of_panic (sv : Semver) (data : List Release) (log : List ListOptions)
    (h : sortSort sv data = Exec.panic) :
    gitHub.Releases.finish sv data log = ⟨Exec.panic, log⟩ := by
  simp [gitHub.Releases.finish, h]

/-! ## The claims -/

/-- C1. A remote release that is marked draft, or marked prerelease, or has no
asset named `docs.tar.gz` yields no `Release` from `toRelease`; so (a) whatever
the pages and whichever value `all` has, every element of a list that
`Releases` returns was built by `toRelease` from some other item of a fetched
page, and (b) when the remote answers the lookup by tag successfully with that
item, `Release` returns `(nil, ErrNotFound)`. -/
theorem ineligible_release_never_served (r : RepositoryRelease)
    (h : r.Draft = some true ∨ r.Prerelease = some true ∨
      ∀ a ∈ r.Assets, a.Name ≠ some "docs.tar.gz") :
    toRelease r = none ∧
    (∀ (sv : Semver) (g : gitHub) (project : String) (all : Bool) (fuel : Nat)
        (run : Run (List Release × Option GoError)) (rs : List Release)
        (e : Option GoError),
        gitHub.Releases sv g project all fuel = some run →
        run.outcome = Exec.ret (rs, e) →
        ∀ x ∈ rs, ∃ o ∈ run.fetched, ∃ item ∈ g.pageItems project o,
          item ≠ r ∧ toRelease item = some x) ∧
    (∀ (g : gitHub) (project tag : String) (rsp : Response),
        g.client.GetReleaseByTag g.org project tag = (some r, some rsp, none) →
        gitHub.Release g project tag = Exec.ret (none, some ErrNotFound)) := by
  have hnone : toRelease r = none := by
    rcases h with hd | hp | ha
    · simp [toRelease, hd, maybeBool]
    · simp [toRelease, hp, maybeBool]
    · simp [toRelease, docsURL_of_no_asset r.Assets ha]
  refine ⟨hnone, ?_, ?_⟩
  · intro sv g project all fuel run rs e hrun hout x hx
    cases e with
    | some err =>
      rw [Releases_err_nil sv g project all fuel run rs err hrun hout] at hx
      cases hx
    | none =>
      have hsort := Releases_ok_sorted sv g project all fuel run rs hrun hout
      have hmem := (sortSort_perm sv _ rs hsort).mem_iff.1 hx
      obtain ⟨o, ho, item, hitem, hto⟩ := (mem_survivors g project run.fetched x).1 hmem
      refine ⟨o, ho, item, hitem, ?_, hto⟩
      intro heq
      rw [heq, hnone] at hto
      cases hto
  · intro g project tag rsp hcall
    unfold gitHub.Release
    rw [hcall]
    by_cases hs : rsp.StatusCode = StatusNotFound
    · simp [hs]
    · simp [hs, hnone]

/-- C1, at the draft with a valid asset: it is dropped by `toRelease`, a listing
that contains it returns only the other releases, and looking it up by tag
gives `(nil, ErrNotFound)`. -/
theorem ineligible_release_never_served_witness :
    (draftWithDocs.Draft = some true ∨ draftWithDocs.Prerelease = some true ∨
      ∀ a ∈ draftWithDocs.Assets, a.Name ≠ some "docs.tar.gz") ∧
    toRelease draftWithDocs = none ∧
    gitHub.Release threeTags "docs" "v1.0.0" = Exec.ret (none, some ErrNotFound) :=
  ⟨Or.inl rfl,
    (ineligible_release_never_served draftWithDocs (Or.inl rfl)).1,
    (ineligible_release_never_served draftWithDocs (Or.inl rfl)).2.2
      threeTags "docs" "v1.0.0" ⟨200, 0⟩ rfl⟩

/-- C2. When `LessThan` of the version library is asymmetric, every list that
`Releases` returns without error is non-decreasing in parsed version: for any
two adjacent elements `a`, `b` both tags parse and `version(b.Tag)` is not less
than `version(a.Tag)`. With the version library of the spec, releases tagged
`v1.2.0`, `v1.10.0`, `v1.3.0` come back as `v1.2.0`, `v1.3.0`, `v1.10.0`, which
is not their order as strings. -/
theorem Releases_sorted_by_version :
    (∀ (sv : Semver), sv.Asymmetric →
      ∀ (g : gitHub) (project : String) (all : Bool) (fuel : Nat)
        (run : Run (List Release × Option GoError)) (rs : List Release),
        gitHub.Releases sv g project all fuel = some run →
        run.outcome = Exec.ret (rs, none) →
        List.Chain' (VersionLE sv) rs) ∧
    gitHub.Releases semverLib threeTags "docs" false 1 =
      some ⟨Exec.ret ([⟨"v1.2.0", "u2"⟩, ⟨"v1.3.0", "u3"⟩, ⟨"v1.10.0", "u10"⟩], none),
        [⟨1, 100⟩]⟩ ∧
    "v1.10.0" < "v1.2.0" := by
  refine ⟨?_, by decide, by rw [String.lt_iff_toList_lt]; decide⟩
  intro sv hsv g project all fuel run rs hrun hout
  exact sortSort_chain sv hsv _ rs (Releases_ok_sorted sv g project all fuel run rs hrun hout)

/-- C2, at the three tags: the version library of the spec is asymmetric and
the returned list is a chain for the version order. -/
theorem Releases_sorted_by_version_witness :
    semverLib.Asymmetric ∧
    List.Chain' (VersionLE semverLib)
      [⟨"v1.2.0", "u2"⟩, ⟨"v1.3.0", "u3"⟩, ⟨"v1.10.0", "u10"⟩] :=
  ⟨semverLib_asymmetric,
    Releases_sorted_by_version.1 semverLib semverLib_asymmetric threeTags "docs" false 1
      ⟨Exec.ret ([⟨"v1.2.0", "u2"⟩, ⟨"v1.3.0", "u3"⟩, ⟨"v1.10.0", "u10"⟩], none),
        [⟨1, 100⟩]⟩ _ (by decide) rfl⟩

/-- C3, as stated, fails: the remote `untagged` has one page, fetched with
success and ending the listing, and both of its releases are eligible; yet
`Releases(project, true)` panics in the sort and, with any version library that
rejects the tag `latest`, returns nothing at any fuel. -/
theorem Releases_all_pages_counterexample :
    untagged.follows "docs" 1 [] = true ∧
    untagged.client.ListReleases untagged.org "docs" (pageRequest 1) =
      ([published "nightly" "u1", published "latest" "u2"], some ⟨200, 0⟩, none) ∧
    untagged.survivors "docs" [pageRequest 1] = [⟨"nightly", "u1"⟩, ⟨"latest", "u2"⟩] ∧
    semver.NewVersion "latest" = none ∧
    gitHub.Releases semverLib untagged "docs" true 1 = some ⟨Exec.panic, [pageRequest 1]⟩ ∧
    (∀ sv : Semver, sv.NewVersion "latest" = none →
      ¬ ∃ fuel rs e log, gitHub.Releases sv untagged "docs" true fuel
        = some ⟨Exec.ret (rs, e), log⟩) := by
  refine ⟨rfl, rfl, by decide, by decide, by decide, ?_⟩
  rintro sv hlatest ⟨fuel, rs, e, log, h⟩
  cases fuel with
  | zero => simp [gitHub.Releases, gitHub.Releases.loop] at h
  | succ n =>
    have hstep := loop_walk_finish sv untagged "docs" true [] 1 [] []
      [published "nightly" "u1", published "latest" "u2"] (some ⟨200, 0⟩) rfl
      (fun hne => absurd rfl hne) rfl (Or.inr ⟨⟨200, 0⟩, rfl, rfl⟩) (n + 1) (by simp)
    have hsurv : untagged.survivors "docs" ([1].map pageRequest)
        = [⟨"nightly", "u1"⟩, ⟨"latest", "u2"⟩] := by decide
    have hsort : sortSort sv ([] ++ untagged.survivors "docs" ([1].map pageRequest))
        = Exec.panic := by
      rw [hsurv]
      exact sortSort_panic_of_bad sv _ (by simp)
        ⟨⟨"latest", "u2"⟩, by simp, by simp [tagParses, hlatest]⟩
    rw [finish_of_panic sv _ _ hsort] at hstep
    unfold gitHub.Releases at h
    rw [hstep] at h
    simp at h

/-- C3, amended. When the pages followed from page 1 through each `NextPage` end
with `NextPage = 0`, every fetch succeeds and, should two or more releases be
eligible, every eligible tag parses, then `Releases(project, true)` returns,
for every sufficient fuel, one list without error after fetching exactly those
pages: a permutation of what `toRelease` keeps of the concatenated pages,
ordered by version as in the single-page case. -/
theorem Releases_all_pages (sv : Semver) (hsv : sv.Asymmetric) (g : gitHub)
    (project : String) (rest : List Nat) (items : List RepositoryRelease) (rsp : Response)
    (hwalk : g.follows project 1 rest = true)
    (hlast : g.client.ListReleases g.org project (pageRequest (lastPage 1 rest))
      = (items, some rsp, none))
    (hend : rsp.NextPage = 0)
    (hparse : 2 ≤ (g.survivors project ((1 :: rest).map pageRequest)).length →
      ∀ x ∈ g.survivors project ((1 :: rest).map pageRequest), tagParses sv x = true) :
    ∃ rs : List Release,
      (∀ fuel, rest.length < fuel →
        gitHub.Releases sv g project true fuel
          = some ⟨Exec.ret (rs, none), (1 :: rest).map pageRequest⟩) ∧
      rs.Perm (g.survivors project ((1 :: rest).map pageRequest)) ∧
      List.Chain' (VersionLE sv) rs := by
  obtain ⟨rs, hrs⟩ := sortSort_ret_of_few_or_parses sv _ hparse
  refine ⟨rs, ?_, sortSort_perm sv _ rs hrs, sortSort_chain sv hsv _ rs hrs⟩
  intro fuel hfuel
  have hstep := loop_walk_finish sv g project true rest 1 [] [] items (some rsp) hwalk
    (fun _ => rfl) hlast (Or.inr ⟨rsp, rfl, hend⟩) fuel hfuel
  rw [List.nil_append, List.nil_append, finish_of_sort sv _ rs _ hrs] at hstep
  exact hstep

/-- C3 amended, at the remote `twoPages`: both pages are fetched and the two
releases come back in version order, `v1.0.0` of page 2 first. -/
theorem Releases_all_pages_witness :
    twoPages.follows "docs" 1 [2] = true ∧
    (∀ fuel, 1 < fuel →
      gitHub.Releases semverLib twoPages "docs" true fuel
        = some ⟨Exec.ret ([⟨"v1.0.0", "u10"⟩, ⟨"v1.1.0", "u11"⟩], none),
            [⟨1, 100⟩, ⟨2, 100⟩]⟩) := by
  obtain ⟨rs, hrun, -, -⟩ := Releases_all_pages semverLib semverLib_asymmetric twoPages
    "docs" [2] [published "v1.0.0" "u10"] ⟨200, 0⟩ rfl rfl rfl (fun _ => by decide)
  refine ⟨rfl, ?_⟩
  have h2 := hrun 2 (by decide)
  have hrs : rs = [⟨"v1.0.0", "u10"⟩, ⟨"v1.1.0", "u11"⟩] := by
    have hd : gitHub.Releases semverLib twoPages "docs" true 2
        = some ⟨Exec.ret ([⟨"v1.0.0", "u10"⟩, ⟨"v1.1.0", "u11"⟩], none),
            [⟨1, 100⟩, ⟨2, 100⟩]⟩ := by decide
    rw [hd] at h2
    simp only [Option.some.injEq, Run.mk.injEq, Exec.ret.injEq, Prod.mk.injEq] at h2
    exact h2.1.1.symm
  subst hrs
  intro fuel hfuel
  exact hrun fuel (by simpa using hfuel)

/-- C4. Against a remote whose pages hold at most 100 items,
`Releases(project, false)` ends at every positive fuel having issued exactly one
request, for page 1 with page size 100, whatever `NextPage` the response
carries; any list it returns has at most 100 elements. -/
theorem Releases_first_page_only (sv : Semver) (g : gitHub) (project : String)
    (hpage : ∀ page, (g.pageItems project (pageRequest page)).length ≤ 100) :
    ∀ fuel, 0 < fuel →
      ∃ run, gitHub.Releases sv g project false fuel = some run ∧
        run.fetched = [⟨1, 100⟩] ∧
        ∀ rs e, run.outcome = Exec.ret (rs, e) → rs.length ≤ 100 := by
  intro fuel hfuel
  obtain ⟨n, rfl⟩ : ∃ n, fuel = n + 1 := ⟨fuel - 1, by omega⟩
  rcases hfetch : g.client.ListReleases g.org project (pageRequest 1)
    with ⟨items, resp, err⟩
  have hitems : g.pageItems project (pageRequest 1) = items := by
    simp [gitHub.pageItems, hfetch]
  cases err with
  | some e =>
    refine ⟨_, loop_succ_err sv g project false n 1 [] [] items resp e hfetch, rfl, ?_⟩
    intro rs e2 hout
    simp only [Exec.ret.injEq, Prod.mk.injEq] at hout
    rw [← hout.1]; simp
  | none =>
    refine ⟨_, loop_succ_first sv g project n 1 [] [] items resp hfetch,
      finish_fetched _ _ _, ?_⟩
    intro rs e hout
    unfold gitHub.Releases.finish at hout
    cases hsort : sortSort sv ([] ++ items.filterMap toRelease) with
    | panic => rw [hsort] at hout; cases hout
    | ret s =>
      rw [hsort] at hout
      simp only [Exec.ret.injEq, Prod.mk.injEq] at hout
      rw [← hout.1, (sortSort_perm sv _ s hsort).length_eq, List.nil_append]
      have h1 := List.length_filterMap_le toRelease items
      have h2 := hpage 1
      rw [hitems] at h2
      omega

/-- C4, at the remote `twoPages`: page 1 points to a second page that holds
another eligible release, and only page 1 is requested. -/
theorem Releases_first_page_only_witness :
    (∀ page, (twoPages.pageItems "docs" (pageRequest page)).length ≤ 100) ∧
    gitHub.Releases semverLib twoPages "docs" false 1
      = some ⟨Exec.ret ([⟨"v1.1.0", "u11"⟩], none), [⟨1, 100⟩]⟩ ∧
    twoPages.survivors "docs" [pageRequest 2] = [⟨"v1.0.0", "u10"⟩] ∧
    ∃ run, gitHub.Releases semverLib twoPages "docs" false 1 = some run ∧
      run.fetched = [⟨1, 100⟩] ∧
      ∀ rs e, run.outcome = Exec.ret (rs, e) → rs.length ≤ 100 := by
  have hpage : ∀ page, (twoPages.pageItems "docs" (pageRequest page)).length ≤ 100 := by
    intro page
    simp only [gitHub.pageItems, twoPages, service, pageRequest]
    split_ifs <;> simp
  exact ⟨hpage, by decide, by decide,
    Releases_first_page_only semverLib twoPages "docs" hpage 1 (by decide)⟩

/-- C5. When the remote answers the lookup with HTTP 404, `Release` returns
`(nil, ErrNotFound)`, which is not the client error that came with the
response; and a lookup answered successfully with an ineligible release returns
that very same value, so the two cases cannot be told apart. -/
theorem Release_not_found_on_404 (g : gitHub) (project tag : String)
    (release : Option RepositoryRelease) (rsp : Response) (err : Option ClientError)
    (hcall : g.client.GetReleaseByTag g.org project tag = (release, some rsp, err))
    (h404 : rsp.StatusCode = StatusNotFound) :
    gitHub.Release g project tag = Exec.ret (none, some ErrNotFound) ∧
    (∀ e, err = some e →
      gitHub.Release g project tag ≠ Exec.ret (none, some (GoError.client e))) ∧
    (∀ (g2 : gitHub) (project2 tag2 : String) (r : RepositoryRelease) (rsp2 : Response),
      g2.client.GetReleaseByTag g2.org project2 tag2 = (some r, some rsp2, none) →
      toRelease r = none →
      gitHub.Release g2 project2 tag2 = gitHub.Release g project tag) := by
  have hmain : gitHub.Release g project tag = Exec.ret (none, some ErrNotFound) := by
    unfold gitHub.Release
    rw [hcall]
    simp [h404]
  refine ⟨hmain, ?_, ?_⟩
  · intro e _ hcon
    rw [hmain] at hcon
    simp [ErrNotFound] at hcon
  · intro g2 project2 tag2 r rsp2 hcall2 hnone
    rw [hmain]
    unfold gitHub.Release
    rw [hcall2]
    by_cases hs : rsp2.StatusCode = StatusNotFound
    · simp [hs]
    · simp [hs, hnone]

/-- C5, at the lookup of `twoPages`, answered 404 together with a client
error: the result is `(nil, ErrNotFound)`, the same as for the draft that
`threeTags` serves. -/
theorem Release_not_found_on_404_witness :
    twoPages.client.GetReleaseByTag twoPages.org "docs" "v9.9.9"
      = (none, some ⟨404, 0⟩, some ⟨"404 Not Found"⟩) ∧
    gitHub.Release twoPages "docs" "v9.9.9" = Exec.ret (none, some ErrNotFound) ∧
    gitHub.Release threeTags "docs" "v1.0.0" = gitHub.Release twoPages "docs" "v9.9.9" :=
  ⟨rfl,
    (Release_not_found_on_404 twoPages "docs" "v9.9.9" none ⟨404, 0⟩
      (some ⟨"404 Not Found"⟩) rfl rfl).1,
    (Release_not_found_on_404 twoPages "docs" "v9.9.9" none ⟨404, 0⟩
      (some ⟨"404 Not Found"⟩) rfl rfl).2.2 threeTags "docs" "v1.0.0" draftWithDocs
      ⟨200, 0⟩ rfl (by decide)⟩

/-- C6, what the code does: when the client hands back no response at all (a
network failure), `Release` reads the status code of the nil response and
panics, whatever error came with it; the error is not returned. -/
theorem Release_panics_without_response (g : gitHub) (project tag : String)
    (release : Option RepositoryRelease) (err : Option ClientError)
    (hcall : g.client.GetReleaseByTag g.org project tag = (release, none, err)) :
    gitHub.Release g project tag = Exec.panic := by
  unfold gitHub.Release
  rw [hcall]

/-- C6, at the remote `unreachable`: the lookup ends with a timeout and no
response, and `Release` panics instead of returning the timeout. -/
theorem Release_panics_without_response_witness :
    unreachable.client.GetReleaseByTag unreachable.org "docs" "v1.0.0"
      = (none, none, some ⟨"dial tcp: i/o timeout"⟩) ∧
    gitHub.Release unreachable "docs" "v1.0.0" = Exec.panic ∧
    gitHub.Release unreachable "docs" "v1.0.0"
      ≠ Exec.ret (none, some (GoError.client ⟨"dial tcp: i/o timeout"⟩)) :=
  ⟨rfl,
    Release_panics_without_response unreachable "docs" "v1.0.0" none
      (some ⟨"dial tcp: i/o timeout"⟩) rfl,
    by
      rw [Release_panics_without_response unreachable "docs" "v1.0.0" none
        (some ⟨"dial tcp: i/o timeout"⟩) rfl]
      exact fun h => Exec.noConfusion h⟩

/-- When the failed lookup does come with a response whose status is not 404,
`Release` returns the client's error unchanged, and that error is not
`ErrNotFound`. -/
theorem Release_surfaces_error_with_response (g : gitHub) (project tag : String)
    (release : Option RepositoryRelease) (rsp : Response) (e : ClientError)
    (hcall : g.client.GetReleaseByTag g.org project tag = (release, some rsp, some e))
    (hstatus : rsp.StatusCode ≠ StatusNotFound) :
    gitHub.Release g project tag = Exec.ret (none, some (GoError.client e)) ∧
    GoError.client e ≠ ErrNotFound := by
  refine ⟨?_, by simp [ErrNotFound]⟩
  unfold gitHub.Release
  rw [hcall]
  simp [hstatus]

/-- C7. When the pages reached from page 1 all succeed up to one whose fetch
fails with error `e` (the first page, or with `all` set a later one),
`Releases` returns `(nil, e)` at every sufficient fuel: the error unchanged, no
release of the earlier pages, and the failing request is the last one issued. -/
theorem Releases_fetch_error_aborts (sv : Semver) (g : gitHub) (project : String)
    (all : Bool) (rest : List Nat) (e : ClientError)
    (hwalk : g.follows project 1 rest = true) (hall : rest ≠ [] → all = true)
    (herr : (g.client.ListReleases g.org project (pageRequest (lastPage 1 rest))).2.2
      = some e) :
    ∀ fuel, rest.length < fuel →
      gitHub.Releases sv g project all fuel =
        some ⟨Exec.ret ([], some (GoError.client e)), (1 :: rest).map pageRequest⟩ := by
  intro fuel hfuel
  have := loop_walk_err sv g project all rest 1 [] [] e hwalk hall herr fuel hfuel
  rw [List.nil_append] at this
  exact this

/-- C7, at the remote `secondPageFails`: page 1 yields an eligible release,
page 2 is rejected; the call returns the rejection and no release, after
requesting pages 1 and 2 and nothing more. -/
theorem Releases_fetch_error_aborts_witness :
    secondPageFails.follows "docs" 1 [2] = true ∧
    secondPageFails.survivors "docs" [pageRequest 1] = [⟨"v1.1.0", "u11"⟩] ∧
    (∀ fuel, 1 < fuel →
      gitHub.Releases semverLib secondPageFails "docs" true fuel =
        some ⟨Exec.ret ([], some (GoError.client ⟨"403 API rate limit exceeded"⟩)),
          [⟨1, 100⟩, ⟨2, 100⟩]⟩) :=
  ⟨rfl, by decide,
    fun fuel hfuel =>
      Releases_fetch_error_aborts semverLib secondPageFails "docs" true [2]
        ⟨"403 API rate limit exceeded"⟩ rfl (fun _ => rfl) rfl fuel (by simpa using hfuel)⟩

/-- C8, as stated, fails: `shadowedDocs` has no draft or prerelease indicator
and has an asset named exactly `docs.tar.gz` with a non-empty download URL, yet
`toRelease` yields nothing, `Releases` leaves it out and `Release` reports
`ErrNotFound`, because an earlier asset of the same name has no URL. -/
theorem toRelease_eligible_counterexample :
    shadowedDocs.Draft = none ∧ shadowedDocs.Prerelease = none ∧
    (∃ a ∈ shadowedDocs.Assets, a.Name = some "docs.tar.gz" ∧
      a.BrowserDownloadURL = some "https://host/v1.0.0/docs.tar.gz") ∧
    toRelease shadowedDocs = none ∧
    (∀ sv : Semver, gitHub.Releases sv shadowedRemote "docs" true 1
      = some ⟨Exec.ret ([], none), [⟨1, 100⟩]⟩) ∧
    gitHub.Release shadowedRemote "docs" "v1.0.0" = Exec.ret (none, some ErrNotFound) := by
  refine ⟨rfl, rfl, ⟨docsAsset "https://host/v1.0.0/docs.tar.gz", by decide, rfl, rfl⟩,
    by decide, ?_, by decide⟩
  intro sv
  have hstep := loop_walk_finish sv shadowedRemote "docs" true [] 1 [] []
    [shadowedDocs] (some ⟨200, 0⟩) rfl (fun hne => absurd rfl hne) rfl
    (Or.inr ⟨⟨200, 0⟩, rfl, rfl⟩) 1 (by decide)
  have hsurv : shadowedRemote.survivors "docs" ([1].map pageRequest) = [] := by decide
  rw [hsurv, List.append_nil, finish_of_sort sv [] [] _ (sortSort_nil sv)] at hstep
  exact hstep

/-- C8, amended. A remote release whose draft and prerelease indicators are
each absent or false and whose first asset named exactly `docs.tar.gz` has a
non-empty download URL yields a `Release` from `toRelease`. `Release` returns
it when the remote answers the lookup successfully with the item. When the
fetches of a listing succeed and end the loop, one of the fetched pages holds
the item and the sort does not abort (every eligible tag parses whenever two or
more releases are eligible), `Releases` returns at every sufficient fuel one
list without error, and that list contains the `Release`; and every list that
`Releases` returns without error after fetching a page that holds the item
contains it. Absent indicators are treated exactly like false ones. -/
theorem first_docs_asset_decides (r : RepositoryRelease) (a : ReleaseAsset)
    (hd : r.Draft = none ∨ r.Draft = some false)
    (hp : r.Prerelease = none ∨ r.Prerelease = some false)
    (hfirst : r.Assets.find? isDocsAsset = some a)
    (hurl : maybeStr a.BrowserDownloadURL ≠ "") :
    toRelease r = some ⟨maybeStr r.TagName, maybeStr a.BrowserDownloadURL⟩ ∧
    (∀ (g : gitHub) (project tag : String) (rsp : Response),
      g.client.GetReleaseByTag g.org project tag = (some r, some rsp, none) →
      rsp.StatusCode ≠ StatusNotFound →
      gitHub.Release g project tag
        = Exec.ret (some ⟨maybeStr r.TagName, maybeStr a.BrowserDownloadURL⟩, none)) ∧
    (∀ (sv : Semver) (g : gitHub) (project : String) (all : Bool) (rest : List Nat)
        (items : List RepositoryRelease) (resp : Option Response),
      g.follows project 1 rest = true → (rest ≠ [] → all = true) →
      g.client.ListReleases g.org project (pageRequest (lastPage 1 rest))
        = (items, resp, none) →
      (all = false ∨ ∃ rsp, resp = some rsp ∧ rsp.NextPage = 0) →
      (∃ page ∈ 1 :: rest, r ∈ g.pageItems project (pageRequest page)) →
      (2 ≤ (g.survivors project ((1 :: rest).map pageRequest)).length →
        ∀ x ∈ g.survivors project ((1 :: rest).map pageRequest), tagParses sv x = true) →
      ∃ rs : List Release,
        (∀ fuel, rest.length < fuel →
          gitHub.Releases sv g project all fuel
            = some ⟨Exec.ret (rs, none), (1 :: rest).map pageRequest⟩) ∧
        (⟨maybeStr r.TagName, maybeStr a.BrowserDownloadURL⟩ : Release) ∈ rs) ∧
    (∀ (sv : Semver) (g : gitHub) (project : String) (all : Bool) (fuel : Nat)
        (run : Run (List Release × Option GoError)) (rs : List Release),
      gitHub.Releases sv g project all fuel = some run →
      run.outcome = Exec.ret (rs, none) →
      (∃ o ∈ run.fetched, r ∈ g.pageItems project o) →
      (⟨maybeStr r.TagName, maybeStr a.BrowserDownloadURL⟩ : Release) ∈ rs) ∧
    toRelease ⟨r.TagName, none, none, r.Assets⟩
      = toRelease ⟨r.TagName, some false, some false, r.Assets⟩ := by
  have hdocs : toRelease.docsURL r.Assets = maybeStr a.BrowserDownloadURL := by
    rw [docsURL_eq_find, hfirst]
  have hdraft : maybeBool r.Draft = false := by
    rcases hd with h | h <;> simp [h, maybeBool]
  have hpre : maybeBool r.Prerelease = false := by
    rcases hp with h | h <;> simp [h, maybeBool]
  have hsome : toRelease r = some ⟨maybeStr r.TagName, maybeStr a.BrowserDownloadURL⟩ := by
    rw [toRelease_eq_some]
    exact ⟨hdraft, hpre, by rw [hdocs]; exact hurl, by rw [hdocs]⟩
  refine ⟨hsome, ?_, ?_, ?_, ?_⟩
  · intro g project tag rsp hcall hstatus
    unfold gitHub.Release
    rw [hcall]
    simp [hstatus, hsome]
  · rintro sv g project all rest items resp hwalk hall hlast hend ⟨page, hpage, hitem⟩ hparse
    obtain ⟨rs, hrs⟩ := sortSort_ret_of_few_or_parses sv _ hparse
    refine ⟨rs, ?_, ?_⟩
    · intro fuel hfuel
      have hstep := loop_walk_finish sv g project all rest 1 [] [] items resp hwalk hall
        hlast hend fuel hfuel
      rw [List.nil_append, List.nil_append, finish_of_sort sv _ rs _ hrs] at hstep
      exact hstep
    · apply (sortSort_perm sv _ rs hrs).mem_iff.2
      exact (mem_survivors g project _ _).2
        ⟨pageRequest page, List.mem_map.2 ⟨page, hpage, rfl⟩, r, hitem, hsome⟩
  · rintro sv g project all fuel run rs hrun hout ⟨o, ho, hitem⟩
    have hsort := Releases_ok_sorted sv g project all fuel run rs hrun hout
    apply (sortSort_perm sv _ rs hsort).mem_iff.2
    exact (mem_survivors g project run.fetched _).2 ⟨o, ho, r, hitem, hsome⟩
  · simp [toRelease, maybeBool]

/-- C8 amended, at `bareRelease`: no indicator is present, an asset named
`DOCS.tar.gz` is passed over, and the first `docs.tar.gz` asset gives the URL;
`Release` returns the release, and `Releases` over the page that holds it
returns, at every positive fuel, one list that contains it. -/
theorem first_docs_asset_decides_witness :
    bareRelease.Assets.find? isDocsAsset = some (docsAsset "first") ∧
    toRelease bareRelease = some ⟨"v2.0.0", "first"⟩ ∧
    gitHub.Release bareRemote "docs" "v2.0.0" = Exec.ret (some ⟨"v2.0.0", "first"⟩, none) ∧
    gitHub.Releases semverLib bareRemote "docs" true 1
      = some ⟨Exec.ret ([⟨"v2.0.0", "first"⟩], none), [⟨1, 100⟩]⟩ ∧
    (∃ rs : List Release,
      (∀ fuel, 0 < fuel →
        gitHub.Releases semverLib bareRemote "docs" true fuel
          = some ⟨Exec.ret (rs, none), [⟨1, 100⟩]⟩) ∧
      (⟨"v2.0.0", "first"⟩ : Release) ∈ rs) :=
  ⟨by decide,
    (first_docs_asset_decides bareRelease (docsAsset "first") (Or.inl rfl) (Or.inl rfl)
      (by decide) (by decide)).1,
    (first_docs_asset_decides bareRelease (docsAsset "first") (Or.inl rfl) (Or.inl rfl)
      (by decide) (by decide)).2.1 bareRemote "docs" "v2.0.0" ⟨200, 0⟩ rfl (by decide),
    by decide,
    (first_docs_asset_decides bareRelease (docsAsset "first") (Or.inl rfl) (Or.inl rfl)
      (by decide) (by decide)).2.2.1 semverLib bareRemote "docs" true [] [bareRelease]
      (some ⟨200, 0⟩) rfl (fun hne => absurd rfl hne) rfl (Or.inr ⟨⟨200, 0⟩, rfl, rfl⟩)
      ⟨1, by decide, by decide⟩ (fun _ => by decide)⟩

/-- C9. Every `Release` that `toRelease` builds from a remote item `r` has a
non-empty `Docs`, which is the download URL of the first asset of `r`, in asset
order, named `docs.tar.gz`, and a `Tag` that is the tag name of `r`, the empty
string when the tag name is absent. -/
theorem toRelease_fields (r : RepositoryRelease) (x : Release)
    (h : toRelease r = some x) :
    x.Docs ≠ "" ∧
    (∃ a, r.Assets.find? isDocsAsset = some a ∧ a.BrowserDownloadURL = some x.Docs) ∧
    x.Tag = maybeStr r.TagName ∧
    (∀ t, r.TagName = some t → x.Tag = t) ∧
    (r.TagName = none → x.Tag = "") := by
  obtain ⟨-, -, hne, hx⟩ := (toRelease_eq_some r x).1 h
  subst hx
  refine ⟨hne, ?_, rfl, ?_, ?_⟩
  · rw [docsURL_eq_find] at hne ⊢
    cases hfind : r.Assets.find? isDocsAsset with
    | none => simp [hfind] at hne
    | some a =>
      refine ⟨a, rfl, ?_⟩
      simp only [hfind] at hne ⊢
      cases hurl : a.BrowserDownloadURL with
      | none => simp [hurl, maybeStr] at hne
      | some u => simp [maybeStr]
  · intro t ht
    simp [ht, maybeStr]
  · intro ht
    simp [ht, maybeStr]

/-- C9, at `bareRelease`, which has two assets named `docs.tar.gz`: the URL of
the first one is taken and the tag is copied. -/
theorem toRelease_fields_witness :
    toRelease bareRelease = some ⟨"v2.0.0", "first"⟩ ∧
    bareRelease.Assets = [⟨some "DOCS.tar.gz", some "upper"⟩, docsAsset "first",
      docsAsset "second"] ∧
    (∃ a, bareRelease.Assets.find? isDocsAsset = some a ∧
      a.BrowserDownloadURL = some "first") :=
  ⟨by decide, rfl,
    (toRelease_fields bareRelease ⟨"v2.0.0", "first"⟩ (by decide)).2.1⟩

/-- C10, as stated, fails: the remote `oneUntagged` holds exactly one eligible
release and its tag `latest` is rejected by the parser, yet with any version
library `Releases` does not panic: it returns that release, for either value of
`all`. -/
theorem Releases_single_bad_tag_counterexample :
    oneUntagged.survivors "docs" [pageRequest 1] = [⟨"latest", "u1"⟩] ∧
    semver.NewVersion "latest" = none ∧
    (∀ (sv : Semver) (all : Bool), gitHub.Releases sv oneUntagged "docs" all 1
      = some ⟨Exec.ret ([⟨"latest", "u1"⟩], none), [⟨1, 100⟩]⟩) := by
  refine ⟨by decide, by decide, ?_⟩
  intro sv all
  have hstep := loop_walk_finish sv oneUntagged "docs" all [] 1 [] []
    [published "latest" "u1"] (some ⟨200, 0⟩) rfl (fun hne => absurd rfl hne) rfl
    (Or.inr ⟨⟨200, 0⟩, rfl, rfl⟩) 1 (by decide)
  have hsurv : oneUntagged.survivors "docs" ([1].map pageRequest) = [⟨"latest", "u1"⟩] := by
    decide
  rw [hsurv, List.nil_append, finish_of_sort sv _ _ _ (sortSort_single sv _)] at hstep
  exact hstep

/-- C10, amended. When the fetches of a call succeed and end the loop, two or
more releases are eligible and at least one of them carries a tag that the
parser rejects, the sort step panics and `Releases` returns no result, at every
sufficient fuel. Hence in every list of two or more elements that `Releases`
returns, every tag parses. -/
theorem Releases_bad_tag_aborts (sv : Semver) (g : gitHub) (project : String)
    (all : Bool) (rest : List Nat) (items : List RepositoryRelease)
    (resp : Option Response)
    (hwalk : g.follows project 1 rest = true) (hall : rest ≠ [] → all = true)
    (hlast : g.client.ListReleases g.org project (pageRequest (lastPage 1 rest))
      = (items, resp, none))
    (hend : all = false ∨ ∃ rsp, resp = some rsp ∧ rsp.NextPage = 0)
    (htwo : 2 ≤ (g.survivors project ((1 :: rest).map pageRequest)).length)
    (hbad : ∃ x ∈ g.survivors project ((1 :: rest).map pageRequest),
      tagParses sv x = false) :
    (∀ fuel, rest.length < fuel →
      gitHub.Releases sv g project all fuel
        = some ⟨Exec.panic, (1 :: rest).map pageRequest⟩) ∧
    (∀ (g2 : gitHub) (project2 : String) (all2 : Bool) (fuel : Nat)
        (run : Run (List Release × Option GoError)) (rs : List Release),
      gitHub.Releases sv g2 project2 all2 fuel = some run →
      run.outcome = Exec.ret (rs, none) → 2 ≤ rs.length →
      ∀ x ∈ rs, tagParses sv x = true) := by
  constructor
  · intro fuel hfuel
    have hstep := loop_walk_finish sv g project all rest 1 [] [] items resp hwalk hall
      hlast hend fuel hfuel
    rw [List.nil_append, List.nil_append,
      finish_of_panic sv _ _ (sortSort_panic_of_bad sv _ htwo hbad)] at hstep
    exact hstep
  · intro g2 project2 all2 fuel run rs hrun hout hlen
    exact sortSort_ret_parses sv _ rs
      (Releases_ok_sorted sv g2 project2 all2 fuel run rs hrun hout) hlen

/-- C10 amended, at the remote `mixedTags`: of two eligible releases one is
tagged `latest`, and the call panics after its single request. -/
theorem Releases_bad_tag_aborts_witness :
    mixedTags.survivors "docs" [pageRequest 1] = [⟨"v1.0.0", "u1"⟩, ⟨"latest", "u2"⟩] ∧
    tagParses semverLib ⟨"latest", "u2"⟩ = false ∧
    (∀ fuel, 0 < fuel →
      gitHub.Releases semverLib mixedTags "docs" false fuel
        = some ⟨Exec.panic, [⟨1, 100⟩]⟩) :=
  ⟨by decide, by decide,
    fun fuel hfuel =>
      (Releases_bad_tag_aborts semverLib mixedTags "docs" false [] _ _ rfl
        (fun hne => absurd rfl hne) rfl (Or.inl rfl) (by decide)
        ⟨⟨"latest", "u2"⟩, by decide, by decide⟩).1 fuel (by simpa using hfuel)⟩

end Docsrv
